import Mathlib

/-!
Verification of the request-routing and path-resolution pipeline of the
project-docs-server repository (src/server.js, src/lib/fileUtils.js and the
modules bundled with them: the security, gitignore-parsing and
language-detection helpers).

The embedding models POSIX path strings as Lean strings manipulated through
their underlying character lists.  Node's path.posix primitives (join,
relative, normalize, basename, dirname, extname, isAbsolute), the behaviour
of the npm ignore package on the pattern forms the repository uses, the
decodeURIComponent builtin, and the Express catch-all route are translated
into executable definitions; the filesystem is an abstract immutable map
from path strings to nodes, and the HTML renderer (an external collaborator,
out of the specified core) is a parameter of the route handler.
-/

namespace DocsServer

/-- A path segment: the run of characters between two separator characters. -/
abbrev Seg := List Char

/-- Accumulator-based splitting of a character list on the separator
character, dropping empty segments (this is the segment scan performed
inside Node's posix path normalization and the gitignore matcher). -/
def splitSegsAux : List Char → Seg → List Seg
  | [], acc => if acc.isEmpty then [] else [acc.reverse]
  | c :: cs, acc =>
    if c = '/' then
      if acc.isEmpty then splitSegsAux cs [] else acc.reverse :: splitSegsAux cs []
    else splitSegsAux cs (c :: acc)

/-- Split a character list into its nonempty slash-separated segments. -/
def splitSegs (cs : List Char) : List Seg := splitSegsAux cs []

/-- Rejoin segments with the separator character (inverse of splitSegs on
well-formed segment lists). -/
def joinSegs : List Seg → List Char
  | [] => []
  | [s] => s
  | s :: rest => s ++ '/' :: joinSegs rest

/-- One step of Node's posix path normalization over a reversed accumulator
of already-emitted segments: a dot segment is dropped, a dot-dot segment
pops the previous segment (or is dropped at the top of an absolute path,
or kept for a relative one), anything else is emitted. -/
def normStep (isAbs : Bool) (acc : List Seg) (seg : Seg) : List Seg :=
  if seg = ['.'] then acc
  else if seg = ['.', '.'] then
    match acc with
    | [] => if isAbs then [] else [['.', '.']]
    | s :: rest => if s = ['.', '.'] then seg :: acc else rest
  else seg :: acc

/-- Lexical resolution of dot and dot-dot segments, as performed by Node's
posix normalizeString routine. -/
def normSegs (isAbs : Bool) (segs : List Seg) : List Seg :=
  (segs.foldl (normStep isAbs) []).reverse

/-- JS String.prototype.startsWith, on the underlying character lists. -/
def jsStartsWith (s pre : String) : Bool := pre.data.isPrefixOf s.data

/-- Boolean contiguous-substring test on character lists. -/
def listIsInfixOf (needle : List Char) : List Char → Bool
  | [] => needle.isEmpty
  | c :: cs => needle.isPrefixOf (c :: cs) || listIsInfixOf needle cs

/-- JS String.prototype.includes, on the underlying character lists. -/
def jsIncludes (s sub : String) : Bool := listIsInfixOf sub.data s.data

/-- JS String.prototype.toLowerCase restricted to per-character lowering
(all extensions and MIME strings involved are ASCII). -/
def jsToLower (s : String) : String := String.mk (s.data.map Char.toLower)

/-- Node path.posix.isAbsolute: a path is absolute when it starts with the
separator character. -/
def isAbsolutePath (s : String) : Bool :=
  match s.data with
  | [] => false
  | c :: _ => c = '/'

/-- Node path.posix.normalize: resolve dot and dot-dot segments and
redundant separators, preserving absoluteness and a trailing separator. -/
def pathNormalize (s : String) : String :=
  let cs := s.data
  let isAbs : Bool := match cs with | [] => false | c :: _ => c = '/'
  let trailing : Bool := cs.getLast? = some '/'
  let ns := normSegs isAbs (splitSegs cs)
  if ns.isEmpty then
    if isAbs then "/" else if trailing then "./" else "."
  else
    let body := joinSegs ns ++ (if trailing then ['/'] else [])
    String.mk (if isAbs then '/' :: body else body)

/-- Node path.posix.join restricted to the two-argument form the server
uses: concatenate the nonempty arguments with a separator, then
normalize. -/
def pathJoin (a b : String) : String :=
  let joined := if a = "" then b else if b = "" then a else String.mk (a.data ++ '/' :: b.data)
  if joined = "" then "." else pathNormalize joined

/-- Node path.posix.resolve for an argument that is already absolute (the
only case the server exercises: the root is resolved at startup and every
candidate is the root joined with a request path): pure lexical
normalization to a canonical absolute string with no trailing separator. -/
def resolveAbs (s : String) : String :=
  String.mk ('/' :: joinSegs (normSegs true (splitSegs s.data)))

/-- Length of the longest common prefix of two segment lists. -/
def commonLen : List Seg → List Seg → Nat
  | a :: as, b :: bs => if a = b then commonLen as bs + 1 else 0
  | _, _ => 0

/-- Node path.posix.relative for absolute arguments: resolve both, strip
the common segment run, then climb with dot-dot segments and descend with
the remainder of the target. -/
def pathRelative (fromS toS : String) : String :=
  let f := normSegs true (splitSegs fromS.data)
  let t := normSegs true (splitSegs toS.data)
  let k := commonLen f t
  String.mk (joinSegs (List.replicate (f.length - k) ['.', '.'] ++ t.drop k))

/-- Node path.posix.basename: characters after the last separator, with
trailing separators ignored. -/
def jsBasename (s : String) : String :=
  let afterTrail := s.data.reverse.dropWhile (· = '/')
  String.mk ((afterTrail.takeWhile (· ≠ '/')).reverse)

/-- Node path.posix.dirname: everything before the separator that precedes
the basename; the separator at index zero makes the result the root. -/
def jsDirname (s : String) : String :=
  let cs := s.data
  let hasRoot : Bool := cs.head? = some '/'
  let afterTrail := (cs.drop 1).reverse.dropWhile (· = '/')
  let afterBase := afterTrail.dropWhile (· ≠ '/')
  match afterBase with
  | [] => if hasRoot then "/" else "."
  | _ :: restRev =>
    if hasRoot ∧ restRev = [] then "//"
    else String.mk (cs.take (restRev.length + 1))

/-- Node path.posix.extname: the suffix of the basename from its last dot,
except that a dot in first position, a lone dot and a lone dot-dot carry
no extension. -/
def extname (p : String) : String :=
  let b := (jsBasename p).data
  if b = ['.'] ∨ b = ['.', '.'] then ""
  else
    let revAfter := b.reverse.takeWhile (· ≠ '.')
    if revAfter.length = b.length then ""
    else if revAfter.length + 1 = b.length then ""
    else String.mk ('.' :: revAfter.reverse)

/-- The security boundary of src/lib/security.js: the candidate is inside
the parent exactly when the relative path is empty, or is truthy, does not
start with two dots and is not absolute. -/
def isSubPath (parent child : String) : Bool :=
  let relative := pathRelative parent child
  if relative = "" then true
  else !(jsStartsWith relative "..") && !(isAbsolutePath relative)

/-- A compiled ignore rule of the npm ignore package: sign, directory-only
marker (trailing separator), anchoring (a separator inside the pattern)
and the glob segments of the pattern. -/
structure IgnoreRule where
  negated : Bool
  dirOnly : Bool
  anchored : Bool
  segs : List Seg
deriving DecidableEq

/-- Compile one ignore pattern (negation already stripped) the way the
ignore package does for the pattern forms the repository exercises. -/
def parseRulePattern (negated : Bool) (cs : List Char) : IgnoreRule :=
  let dirOnly := cs.getLast? = some '/'
  let cs1 := if dirOnly then cs.dropLast else cs
  { negated := negated, dirOnly := dirOnly,
    anchored := cs1.contains '/', segs := splitSegs cs1 }

/-- Split a character list on newline characters, keeping empty lines. -/
def splitLinesAux : List Char → List Char → List (List Char)
  | [], acc => [acc.reverse]
  | c :: cs, acc =>
    if c = '\n' then acc.reverse :: splitLinesAux cs []
    else splitLinesAux cs (c :: acc)

/-- Compile one line of an ignore file: blank lines and comment lines
yield no rule, a leading exclamation mark negates. -/
def lineRule (line : List Char) : Option IgnoreRule :=
  let l := if line.getLast? = some '\r' then line.dropLast else line
  if l.isEmpty ∨ l.all (fun c => c == ' ' || c == '\t') ∨ l.head? = some '#' then none
  else if l.head? = some '!' then some (parseRulePattern true (l.drop 1))
  else some (parseRulePattern false l)

/-- Parse ignore-file content into its ordered rule list (ig.add). -/
def parseGitignore (content : String) : List IgnoreRule :=
  (splitLinesAux content.data []).filterMap lineRule

/-- Glob match of one pattern segment against one path segment, with an
explicit fuel bounding the recursion depth: a star matches any run of
characters inside the segment, a question mark matches one character,
anything else matches literally.  Every step shortens the pattern or the
input, so fuel equal to their combined length never runs out. -/
def globMatchF : Nat → List Char → List Char → Bool
  | 0, _, _ => false
  | _ + 1, [], cs => cs.isEmpty
  | fuel + 1, p :: ps, cs =>
    if p = '*' then
      globMatchF fuel ps cs ||
        (match cs with
         | [] => false
         | _ :: cs2 => globMatchF fuel (p :: ps) cs2)
    else
      match cs with
      | [] => false
      | c :: cs2 => (p == '?' || p == c) && globMatchF fuel ps cs2

/-- Glob match of one pattern segment against one path segment. -/
def globMatch (pat cs : List Char) : Bool :=
  globMatchF (pat.length + cs.length + 1) pat cs

/-- Match an anchored pattern segment list against a path segment list,
with fuel as in globMatchF; a double-star pattern segment spans any
number of path segments. -/
def matchSegsF : Nat → List Seg → List Seg → Bool
  | 0, _, _ => false
  | _ + 1, [], segs => segs.isEmpty
  | fuel + 1, p :: ps, segs =>
    if p = ['*', '*'] then
      matchSegsF fuel ps segs ||
        (match segs with
         | [] => false
         | _ :: rest => matchSegsF fuel (p :: ps) rest)
    else
      match segs with
      | [] => false
      | s :: rest => globMatch p s && matchSegsF fuel ps rest

/-- Match an anchored pattern segment list against a path segment list. -/
def matchSegs (pat segs : List Seg) : Bool :=
  matchSegsF (pat.length + segs.length + 1) pat segs

/-- Whether a rule matches the path given by the segment list; isDirPos
records that this path is a proper ancestor of the tested path, hence
known to be a directory, which is what a directory-only rule requires.
An unanchored rule tests the basename, an anchored one the whole
root-relative path. -/
def ruleMatches (r : IgnoreRule) (segs : List Seg) (isDirPos : Bool) : Bool :=
  (!r.dirOnly || isDirPos) &&
    (if r.anchored then matchSegs r.segs segs
     else
       match segs.getLast? with
       | some lastSeg => globMatch (r.segs.headD []) lastSeg
       | none => false)

/-- Verdict of the last matching rule on one path, as in the ignore
package where later rules override earlier ones. -/
def lastMatch (rules : List IgnoreRule) (segs : List Seg) (isDirPos : Bool) : Option Bool :=
  rules.foldl (fun acc r => if ruleMatches r segs isDirPos then some (!r.negated) else acc) none

/-- The nonempty prefixes of a segment list, shortest first. -/
def nonemptyPrefixes (segs : List Seg) : List (List Seg) :=
  (List.range segs.length).map (fun i => segs.take (i + 1))

/-- The ignore verdict of the ignore package on a relative path: the path
is ignored when it, or any ancestor directory of it, is matched ignored by
the last matching rule at that level (a child of an ignored directory
cannot be re-included). -/
def ignoresSegs (rules : List IgnoreRule) (segs : List Seg) : Bool :=
  (nonemptyPrefixes segs).any fun p =>
    lastMatch rules p (decide (p.length < segs.length)) == some true

/-- ig.ignores on a relative path string. -/
def igIgnores (rules : List IgnoreRule) (pathStr : String) : Bool :=
  ignoresSegs rules (splitSegs pathStr.data)

/-- A filesystem node: a regular file with its text content, or a
directory with the names of its direct children; both carry a
modification time. -/
inductive FSNode where
  | file (content : String) (mtime : Nat)
  | dir (children : List String) (mtime : Nat)
deriving DecidableEq

/-- The abstract immutable filesystem a request runs against: a total map
from path strings to nodes, existence being a some result. -/
abbrev FileSys := String → Option FSNode

/-- The upward walk of loadGitignoreRules: read the ignore file of the
current directory when present (a directory or unreadable entry at that
name contributes nothing, as the caught read error does), then move to the
parent until it equals the current directory; the fuel bounds the chain,
which the shrinking of jsDirname keeps within the starting length plus
two, and the visited list models the cycle guard. -/
def gitignoreWalk (fs : FileSys) : Nat → String → List String → List IgnoreRule
  | 0, _, _ => []
  | fuel + 1, currentDir, visited =>
    if currentDir = "" ∨ visited.contains currentDir then []
    else
      let here :=
        match fs (pathJoin currentDir ".gitignore") with
        | some (.file content _) => parseGitignore content
        | _ => []
      let parent := jsDirname currentDir
      if parent = currentDir then here
      else here ++ gitignoreWalk fs fuel parent (currentDir :: visited)

/-- loadGitignoreRules of src/lib/gitignoreParser.js: the implicit rule
hiding the git directory name first, then the rules of each ancestor
ignore file from the root upward.  The per-root cache is a pure
memoization and is not modelled. -/
def loadGitignoreRules (fs : FileSys) (rootDir : String) : List IgnoreRule :=
  parseGitignore ".git" ++ gitignoreWalk fs (rootDir.length + 2) rootDir []

/-- Replace backslash separators by forward separators, as shouldIgnoreFile
does before matching so that patterns behave identically across host
separator conventions. -/
def toPosixSeps (s : String) : String :=
  String.mk (s.data.map fun c => if c = '\\' then '/' else c)

/-- shouldIgnoreFile of src/lib/gitignoreParser.js: a path whose relative
path from the root starts with two dots is never ignored, the root itself
is never ignored, and otherwise the backslash-normalized relative path is
tested against the rules. -/
def shouldIgnoreFile (fs : FileSys) (filePath rootDir : String) : Bool :=
  let rules := loadGitignoreRules fs rootDir
  let relativePath := pathRelative rootDir filePath
  if jsStartsWith relativePath ".." then false
  else if relativePath = "" ∨ relativePath = "." then false
  else igIgnores rules (toPosixSeps relativePath)

/-- The closed extension-to-language table of detectLanguage. -/
def extLanguage : String → Option String
  | ".js" => some "javascript"
  | ".ts" => some "typescript"
  | ".py" => some "python"
  | ".java" => some "java"
  | ".cpp" => some "cpp"
  | ".c" => some "c"
  | ".css" => some "css"
  | ".html" => some "html"
  | ".xml" => some "xml"
  | ".json" => some "json"
  | ".yml" => some "yaml"
  | ".yaml" => some "yaml"
  | ".sh" => some "bash"
  | ".php" => some "php"
  | ".rb" => some "ruby"
  | ".go" => some "go"
  | ".rs" => some "rust"
  | ".sql" => some "sql"
  | _ => none

/-- detectLanguage of src/lib/languageDetector.js: extension table first;
for extensionless files, shebang substrings on the first line, then the
fixed javascript keyword set, then the fixed python keyword set. -/
def detectLanguage (filePath content : String) : Option String :=
  let ext := jsToLower (extname filePath)
  match extLanguage ext with
  | some l => some l
  | none =>
    if ext = "" then
      let firstLine := String.mk (content.data.takeWhile (· ≠ '\n'))
      if jsIncludes firstLine "#!/usr/bin/env node" || jsIncludes firstLine "#!/usr/bin/node" then
        some "javascript"
      else if jsIncludes firstLine "#!/usr/bin/env python" || jsIncludes firstLine "#!/usr/bin/python" then
        some "python"
      else if jsIncludes firstLine "#!/bin/bash" || jsIncludes firstLine "#!/bin/sh" then
        some "bash"
      else if jsIncludes content "function " || jsIncludes content "const " ||
          jsIncludes content "let " || jsIncludes content "var " ||
          jsIncludes content "class " || jsIncludes content "console.log" then
        some "javascript"
      else if jsIncludes content "def " || jsIncludes content "import " ||
          jsIncludes content "from " || jsIncludes content "print(" then
        some "python"
      else none
    else none

/-- getFileType of src/lib/fileUtils.js. -/
def getFileType : String → String
  | ".md" => "markdown"
  | ".html" => "html"
  | ".htm" => "html"
  | ".js" => "javascript"
  | ".ts" => "typescript"
  | ".json" => "json"
  | ".css" => "css"
  | ".py" => "python"
  | ".txt" => "text"
  | ".yml" => "yaml"
  | ".yaml" => "yaml"
  | _ => "file"

/-- The record getFileInfo builds for one directory entry. -/
structure FileEntry where
  name : String
  isDirectory : Bool
  size : Option Nat
  modified : Nat
  extension : String
  type : String
deriving DecidableEq

/-- getFileInfo of src/lib/fileUtils.js; a missing node makes statSync
throw, modelled as none and surfaced by the route handler as the caught
internal error. -/
def getFileInfo (fs : FileSys) (filePath : String) : Option FileEntry :=
  match fs filePath with
  | none => none
  | some n =>
    let ext := jsToLower (extname filePath)
    some {
      name := jsBasename filePath
      isDirectory := match n with | .dir .. => true | .file .. => false
      size := match n with | .dir .. => none | .file c _ => some c.utf8ByteSize
      modified := match n with | .dir _ m => m | .file _ m => m
      extension := ext
      type := match n with | .dir .. => "directory" | .file .. => getFileType ext }

/-- Three-way comparison of character lists by code point. -/
def cmpChars : List Char → List Char → Int
  | [], [] => 0
  | [], _ :: _ => -1
  | _ :: _, [] => 1
  | a :: as, b :: bs =>
    if a.toNat < b.toNat then -1
    else if b.toNat < a.toNat then 1
    else cmpChars as bs

/-- Model of JS String.prototype.localeCompare under the default locale on
the names the server lists: base characters compare case-insensitively
first, and at equal base letters the lowercase form orders first. -/
def localeCompare (s t : String) : Int :=
  let c := cmpChars (s.data.map Char.toLower) (t.data.map Char.toLower)
  if c = 0 then cmpChars t.data s.data else c

/-- The sort comparator of the directory listing in src/server.js:
directories before files, then ascending name order. -/
def entryCmp (a b : FileEntry) : Int :=
  if a.isDirectory ∧ ¬b.isDirectory then -1
  else if ¬a.isDirectory ∧ b.isDirectory then 1
  else localeCompare a.name b.name

/-- The ordering relation the comparator induces. -/
def entryLEProp (a b : FileEntry) : Prop := entryCmp a b ≤ 0

instance : DecidableRel entryLEProp :=
  fun a b => inferInstanceAs (Decidable (entryCmp a b ≤ 0))

/-- Build the info records of the surviving children in order; one failing
stat aborts the listing (the thrown error reaches the catch block). -/
def mapInfos (fs : FileSys) : List String → Option (List FileEntry)
  | [] => some []
  | p :: ps =>
    match getFileInfo fs p, mapInfos fs ps with
    | some e, some es => some (e :: es)
    | _, _ => none

/-- The directory-listing pipeline of the route handler: drop children
whose name starts with the hidden-file marker, drop ignored children, stat
the rest, then sort with the comparator (Array.prototype.sort is a stable
sort producing a sequence ordered by a consistent comparator, modelled
here by a stable insertion sort). -/
def listDirectory (fs : FileSys) (rootDir dirPath : String) (children : List String) :
    Option (List FileEntry) :=
  let names := children.filter (fun f => !(jsStartsWith f "."))
  let paths := names.map (fun f => pathJoin dirPath f)
  let kept := paths.filter (fun p => !(shouldIgnoreFile fs p rootDir))
  match mapInfos fs kept with
  | none => none
  | some entries => some (entries.insertionSort entryLEProp)

/-- Numeric value of one hexadecimal digit. -/
def hexVal (c : Char) : Option Nat :=
  if '0' ≤ c ∧ c ≤ '9' then some (c.toNat - '0'.toNat)
  else if 'a' ≤ c ∧ c ≤ 'f' then some (c.toNat - 'a'.toNat + 10)
  else if 'A' ≤ c ∧ c ≤ 'F' then some (c.toNat - 'A'.toNat + 10)
  else none

/-- Scan of decodeURIComponent input: each percent sign must be followed
by two hexadecimal digits and yields a byte token, every other character
passes through as itself. -/
def pctTokens : List Char → Option (List (Sum Char Nat))
  | [] => some []
  | c :: cs =>
    if c = '%' then
      match cs with
      | h1 :: h2 :: cs2 =>
        match hexVal h1, hexVal h2 with
        | some a, some b => (Sum.inr (16 * a + b) :: ·) <$> pctTokens cs2
        | _, _ => none
      | _ => none
    else (Sum.inl c :: ·) <$> pctTokens cs

/-- UTF-8 assembly of the token stream: byte tokens must form complete,
minimal, non-surrogate UTF-8 sequences whose continuation bytes are
themselves byte tokens, exactly the sequences decodeURIComponent accepts. -/
def utf8Assemble : List (Sum Char Nat) → Option (List Char)
  | [] => some []
  | Sum.inl c :: rest => (c :: ·) <$> utf8Assemble rest
  | Sum.inr b :: rest =>
    if b < 0x80 then (Char.ofNat b :: ·) <$> utf8Assemble rest
    else if 0xC2 ≤ b ∧ b ≤ 0xDF then
      match rest with
      | Sum.inr b1 :: rest1 =>
        if 0x80 ≤ b1 ∧ b1 ≤ 0xBF then
          (Char.ofNat ((b - 0xC0) * 64 + (b1 - 0x80)) :: ·) <$> utf8Assemble rest1
        else none
      | _ => none
    else if 0xE0 ≤ b ∧ b ≤ 0xEF then
      match rest with
      | Sum.inr b1 :: Sum.inr b2 :: rest2 =>
        let lo1 := if b = 0xE0 then 0xA0 else 0x80
        let hi1 := if b = 0xED then 0x9F else 0xBF
        if (lo1 ≤ b1 ∧ b1 ≤ hi1) ∧ (0x80 ≤ b2 ∧ b2 ≤ 0xBF) then
          (Char.ofNat ((b - 0xE0) * 4096 + (b1 - 0x80) * 64 + (b2 - 0x80)) :: ·) <$>
            utf8Assemble rest2
        else none
      | _ => none
    else if 0xF0 ≤ b ∧ b ≤ 0xF4 then
      match rest with
      | Sum.inr b1 :: Sum.inr b2 :: Sum.inr b3 :: rest3 =>
        let lo1 := if b = 0xF0 then 0x90 else 0x80
        let hi1 := if b = 0xF4 then 0x8F else 0xBF
        if (lo1 ≤ b1 ∧ b1 ≤ hi1) ∧ (0x80 ≤ b2 ∧ b2 ≤ 0xBF) ∧ (0x80 ≤ b3 ∧ b3 ≤ 0xBF) then
          (Char.ofNat ((b - 0xF0) * 262144 + (b1 - 0x80) * 4096 +
              (b2 - 0x80) * 64 + (b3 - 0x80)) :: ·) <$> utf8Assemble rest3
        else none
      | _ => none
    else none

/-- The decodeURIComponent builtin: none models the thrown URIError. -/
def decodeURIComponent (s : String) : Option String :=
  match pctTokens s.data with
  | none => none
  | some toks => (String.mk ·) <$> utf8Assemble toks

/-- An HTTP response of the route handler: an explicit status with a short
plain body, a generated HTML body sent with status 200, or a raw file
streamed by res.sendFile with no content read into application memory. -/
inductive Response where
  | plain (status : Nat) (body : String)
  | html (body : String)
  | fileRaw (path : String)
deriving DecidableEq

/-- The status code carried by a response. -/
def Response.status : Response → Nat
  | .plain s _ => s
  | .html _ => 200
  | .fileRaw _ => 200

/-- The content-type gate of the route handler on a looked-up MIME type: a
missing type never qualifies, otherwise the type must begin with the text
prefix or be exactly the javascript or json application type. -/
def isTextRenderableMime : Option String → Bool
  | none => false
  | some t => jsStartsWith t "text/" || t = "application/javascript" || t = "application/json"

/-- The external renderer collaborator (src/lib/htmlGenerator.js, outside
the specified core): the directory entry point takes the directory path,
the entries, the current request path and the root; the file entry point
takes the file name, the content, the request path, the markdown flag, the
detected language and the html flag. -/
structure Renderer where
  dirHTML : String → List FileEntry → String → String → String
  fileHTML : String → String → String → Bool → Option String → Bool → String

/-- The body Express sends when decoding a captured route parameter fails.
Modelled from Express 4 routing: the catch-all route captures the whole
path as a parameter, a malformed percent-encoding makes its decoding throw
and the framework answers with status 400 before the handler runs. -/
def expressDecodeFailureBody : String := "Failed to decode param"

/-- The catch-all GET handler of src/server.js: decode the request path,
join it with the root, reject escapes with 403, hide ignored paths as 404,
answer 404 for missing paths, render a listing for directories, and for
files render as text behind the MIME gate or stream raw otherwise.  The
filesystem is immutable during the request, so the stat race of the catch
block cannot occur apart from the missing-child case of the listing. -/
def handleRequest (fs : FileSys) (mimeOf : String → Option String) (rnd : Renderer)
    (rootDir reqPath : String) : Response :=
  match decodeURIComponent reqPath with
  | none => .plain 400 expressDecodeFailureBody
  | some requestedPath =>
    let fullPath := pathJoin rootDir requestedPath
    if ¬isSubPath rootDir fullPath ∧ fullPath ≠ rootDir then
      .plain 403 "Access denied: Path outside of root directory"
    else if shouldIgnoreFile fs fullPath rootDir then
      .plain 404 "File not found"
    else
      match fs fullPath with
      | none => .plain 404 "File not found"
      | some (.dir children _) =>
        match listDirectory fs rootDir fullPath children with
        | none => .plain 500 "Internal server error"
        | some files =>
          .html (rnd.dirHTML fullPath files (if requestedPath = "/" then "" else requestedPath) rootDir)
      | some (.file content _) =>
        let ext := jsToLower (extname fullPath)
        let fileName := jsBasename fullPath
        if isTextRenderableMime (mimeOf fullPath) then
          .html (rnd.fileHTML fileName content requestedPath (ext = ".md")
            (detectLanguage fullPath content) (ext = ".html" ∨ ext = ".htm"))
        else
          .fileRaw fullPath

/-! ### Specification-side definitions

These definitions follow the words of the specification rather than the
source, and exist to be compared with the source-derived functions. -/

/-- The containment property of spec sections 3 and 8: the candidate
lexically reduces to the root itself or to a descendant of the root, that
is, after resolving dot and dot-dot segments and redundant separators the
root's segment sequence is a prefix of the candidate's. -/
def lexContained (root p : String) : Bool :=
  (normSegs true (splitSegs root.data)).isPrefixOf (normSegs true (splitSegs p.data))

/-- The extra condition the code actually imposes beyond lexical
containment: the first segment of the candidate below the root, when
there is one, must not begin with two dots. -/
def firstRelSegOK (root p : String) : Bool :=
  match (normSegs true (splitSegs p.data)).drop (normSegs true (splitSegs root.data)).length with
  | [] => true
  | s :: _ => !(['.', '.'].isPrefixOf s)

/-- The classification the specification prescribes in section 4.3 for a
file without an extension: shebang substrings on the first line (node
variants to javascript, python variants to python, bash and sh to bash),
then the fixed javascript keyword set, then the fixed python keyword set,
otherwise no language. -/
def specNoExtLanguage (content : String) : Option String :=
  let firstLine := String.mk (content.data.takeWhile (· ≠ '\n'))
  if jsIncludes firstLine "#!/usr/bin/env node" || jsIncludes firstLine "#!/usr/bin/node" then
    some "javascript"
  else if jsIncludes firstLine "#!/usr/bin/env python" || jsIncludes firstLine "#!/usr/bin/python" then
    some "python"
  else if jsIncludes firstLine "#!/bin/bash" || jsIncludes firstLine "#!/bin/sh" then
    some "bash"
  else if jsIncludes content "function " || jsIncludes content "const " ||
      jsIncludes content "let " || jsIncludes content "var " ||
      jsIncludes content "class " || jsIncludes content "console.log" then
    some "javascript"
  else if jsIncludes content "def " || jsIncludes content "import " ||
      jsIncludes content "from " || jsIncludes content "print(" then
    some "python"
  else none

/-- The implicit rule the loader always installs first (ig.add of the git
directory name). -/
def gitImplicitRule : IgnoreRule :=
  { negated := false, dirOnly := false, anchored := false,
    segs := [['.', 'g', 'i', 't']] }

/-- Well-formed segment: nonempty and free of separator characters. -/
def SegWF (s : Seg) : Prop := s ≠ [] ∧ '/' ∉ s

/-! ### Concrete fixtures for witnesses and counterexamples -/

/-- A root holding an ignore file that negates the implicit git rule. -/
def fsNegGit : FileSys := fun p =>
  if p = "/docs" then some (.dir [".git", ".gitignore"] 0)
  else if p = "/docs/.gitignore" then some (.file "!.git" 0)
  else if p = "/docs/.git" then some (.dir [] 0)
  else none

/-- A root with an ignored file, a missing path, a markdown file, a
binary file and a directory, used by the end-to-end witnesses. -/
def fsDocs : FileSys := fun p =>
  if p = "/srv/docs" then some (.dir ["README.md", "logo.png", "secret.txt", "sub", "..notes.md"] 0)
  else if p = "/srv/docs/.gitignore" then some (.file "secret.txt\n" 0)
  else if p = "/srv/docs/README.md" then some (.file "# Hello" 5)
  else if p = "/srv/docs/logo.png" then some (.file "PNG" 6)
  else if p = "/srv/docs/secret.txt" then some (.file "s" 4)
  else if p = "/srv/docs/sub" then some (.dir [] 2)
  else if p = "/srv/docs/..notes.md" then some (.file "notes" 7)
  else if p = "/etc/passwd" then some (.file "root:x:0:0" 8)
  else none

/-- A root with three children and no ignore file, the ordering example of
the specification. -/
def fsSort : FileSys := fun p =>
  if p = "/d" then some (.dir ["b.txt", "A", "a.txt"] 0)
  else if p = "/d/b.txt" then some (.file "bb" 1)
  else if p = "/d/A" then some (.dir [] 2)
  else if p = "/d/a.txt" then some (.file "aa" 3)
  else none

/-- An extension-based MIME lookup fixture for the witnesses, with a text
type, an image type and an unknown extension. -/
def mimeFix : String → Option String := fun p =>
  let e := jsToLower (extname p)
  if e = ".md" then some "text/markdown"
  else if e = ".txt" then some "text/plain"
  else if e = ".png" then some "image/png"
  else none

/-- A trivial renderer fixture: the directory entry point lists the entry
names, the file entry point returns the file name. -/
def rndFix : Renderer :=
  { dirHTML := fun _ es _ _ => String.intercalate "," (es.map (fun e => e.name))
    fileHTML := fun n _ _ _ _ _ => n }

/-! ### Structural lemmas about segments -/

theorem splitSegsAux_wf (cs : List Char) :
    ∀ acc : List Char, (∀ c ∈ acc, c ≠ '/') →
      ∀ s ∈ splitSegsAux cs acc, SegWF s := by
  induction cs with
  | nil =>
    intro acc hacc s hs
    cases acc with
    | nil => simp [splitSegsAux] at hs
    | cons a as =>
      simp [splitSegsAux] at hs
      subst hs
      refine ⟨by simp, fun hm => ?_⟩
      refine hacc '/' ?_ rfl
      simp at hm ⊢
      tauto
  | cons c cs ih =>
    intro acc hacc s hs
    by_cases hc : c = '/'
    · subst hc
      cases acc with
      | nil =>
        simp [splitSegsAux] at hs
        exact ih [] (by simp) s hs
      | cons a as =>
        simp [splitSegsAux] at hs
        rcases hs with h1 | h2
        · subst h1
          refine ⟨by simp, fun hm => ?_⟩
          refine hacc '/' ?_ rfl
          simp at hm ⊢
          tauto
        · exact ih [] (by simp) s h2
    · simp [splitSegsAux, hc] at hs
      refine ih (c :: acc) ?_ s hs
      intro x hx
      rcases List.mem_cons.mp hx with h1 | h2
      · subst h1; exact hc
      · exact hacc x h2

theorem splitSegs_wf (cs : List Char) : ∀ s ∈ splitSegs cs, SegWF s :=
  splitSegsAux_wf cs [] (by simp)

theorem mem_normStep (b : Bool) (acc : List Seg) (seg : Seg) :
    ∀ x ∈ normStep b acc seg, x ∈ acc ∨ x = seg ∨ x = ['.', '.'] := by
  intro x hx
  unfold normStep at hx
  split at hx
  · exact Or.inl hx
  · split at hx
    · split at hx
      · split at hx
        · simp at hx
        · simp at hx; exact Or.inr (Or.inr hx)
      · split at hx
        · rcases List.mem_cons.mp hx with h | h
          · exact Or.inr (Or.inl h)
          · exact Or.inl h
        · exact Or.inl (List.mem_cons_of_mem _ hx)
    · rcases List.mem_cons.mp hx with h | h
      · exact Or.inr (Or.inl h)
      · exact Or.inl h

theorem mem_foldl_normStep (b : Bool) (segs : List Seg) :
    ∀ acc, ∀ x ∈ List.foldl (normStep b) acc segs,
      x ∈ acc ∨ x ∈ segs ∨ x = ['.', '.'] := by
  induction segs with
  | nil => intro acc x hx; exact Or.inl hx
  | cons s rest ih =>
    intro acc x hx
    rcases ih (normStep b acc s) x hx with h | h | h
    · rcases mem_normStep b acc s x h with h1 | h1 | h1
      · exact Or.inl h1
      · exact Or.inr (Or.inl (h1 ▸ List.mem_cons_self s rest))
      · exact Or.inr (Or.inr h1)
    · exact Or.inr (Or.inl (List.mem_cons_of_mem s h))
    · exact Or.inr (Or.inr h)

theorem normSegs_wf (b : Bool) (segs : List Seg) (h : ∀ s ∈ segs, SegWF s) :
    ∀ s ∈ normSegs b segs, SegWF s := by
  intro s hs
  unfold normSegs at hs
  rcases mem_foldl_normStep b segs [] s (List.mem_reverse.mp hs) with h1 | h1 | h1
  · simp at h1
  · exact h s h1
  · exact h1 ▸ ⟨by simp, by decide⟩

theorem mem_foldl_normStep_true (segs : List Seg) :
    ∀ acc, (∀ x ∈ acc, x ≠ ['.'] ∧ x ≠ ['.', '.']) →
      ∀ x ∈ List.foldl (normStep true) acc segs, x ≠ ['.'] ∧ x ≠ ['.', '.'] := by
  induction segs with
  | nil => intro acc hacc x hx; exact hacc x hx
  | cons s rest ih =>
    intro acc hacc x hx
    refine ih (normStep true acc s) ?_ x hx
    intro y hy
    unfold normStep at hy
    split at hy
    · exact hacc y hy
    · rename_i hdot
      split at hy
      · rename_i hdd
        split at hy
        · split at hy
          · simp at hy
          · rename_i hc
            exact absurd rfl hc
        · rename_i s0 rest0
          split at hy
          · rename_i hs0
            exact absurd hs0 (hacc s0 (List.mem_cons_self s0 rest0)).2
          · exact hacc y (List.mem_cons_of_mem s0 hy)
      · rename_i hdd
        rcases List.mem_cons.mp hy with h | h
        · exact h ▸ ⟨hdot, hdd⟩
        · exact hacc y h

theorem normSegs_true_nodots (segs : List Seg) :
    ∀ x ∈ normSegs true segs, x ≠ ['.'] ∧ x ≠ ['.', '.'] := by
  intro x hx
  unfold normSegs at hx
  exact mem_foldl_normStep_true segs [] (by simp) x (List.mem_reverse.mp hx)

theorem foldl_normStep_push (b : Bool) (segs : List Seg)
    (h : ∀ s ∈ segs, s ≠ ['.'] ∧ s ≠ ['.', '.']) :
    ∀ acc, List.foldl (normStep b) acc segs = segs.reverse ++ acc := by
  induction segs with
  | nil => intro acc; simp
  | cons s rest ih =>
    intro acc
    have hs := h s (List.mem_cons_self s rest)
    have hstep : normStep b acc s = s :: acc := by
      unfold normStep
      rw [if_neg hs.1, if_neg hs.2]
    rw [List.foldl_cons, hstep, ih (fun x hx => h x (List.mem_cons_of_mem s hx))]
    simp

theorem normSegs_fix (b : Bool) (segs : List Seg)
    (h : ∀ s ∈ segs, s ≠ ['.'] ∧ s ≠ ['.', '.']) :
    normSegs b segs = segs := by
  unfold normSegs
  rw [foldl_normStep_push b segs h []]
  simp

theorem commonLen_le_left (f : List Seg) : ∀ t, commonLen f t ≤ f.length := by
  induction f with
  | nil => intro t; cases t <;> simp [commonLen]
  | cons a as ih =>
    intro t
    cases t with
    | nil => simp [commonLen]
    | cons b bs =>
      unfold commonLen
      by_cases h : a = b
      · rw [if_pos h]
        have := ih bs
        simp only [List.length_cons]
        omega
      · rw [if_neg h]
        simp

theorem commonLen_eq_left_iff (f : List Seg) :
    ∀ t, commonLen f t = f.length ↔ f.isPrefixOf t = true := by
  induction f with
  | nil => intro t; cases t <;> simp [commonLen, List.isPrefixOf]
  | cons a as ih =>
    intro t
    cases t with
    | nil => simp [commonLen, List.isPrefixOf]
    | cons b bs =>
      unfold commonLen
      by_cases h : a = b
      · subst h
        rw [if_pos rfl]
        simp only [List.isPrefixOf, List.length_cons, beq_self_eq_true, Bool.true_and]
        rw [← ih bs]
        omega
      · rw [if_neg h]
        simp only [List.isPrefixOf, List.length_cons,
          beq_eq_false_iff_ne.mpr h, Bool.false_and]
        constructor
        · intro h1; omega
        · intro h1; simp at h1

theorem joinSegs_cons₂ (s r0 : Seg) (rest : List Seg) :
    joinSegs (s :: r0 :: rest) = s ++ '/' :: joinSegs (r0 :: rest) := rfl

theorem joinSegs_ne_nil (s : Seg) (hs : s ≠ []) (r : List Seg) :
    joinSegs (s :: r) ≠ [] := by
  cases r with
  | nil => exact hs
  | cons r0 rest =>
    rw [joinSegs_cons₂]
    simp

theorem dd_isPrefixOf_joinSegs (s : Seg) (hs : s ≠ []) (r : List Seg) :
    ['.', '.'].isPrefixOf (joinSegs (s :: r)) = ['.', '.'].isPrefixOf s := by
  cases r with
  | nil => rfl
  | cons r0 rest =>
    rw [joinSegs_cons₂]
    cases s with
    | nil => exact absurd rfl hs
    | cons c1 s1 =>
      cases s1 with
      | nil => simp [List.isPrefixOf]
      | cons c2 s2 => simp [List.isPrefixOf]

theorem isAbsolute_mk_joinSegs (s : Seg) (hs : SegWF s) (r : List Seg) :
    isAbsolutePath (String.mk (joinSegs (s :: r))) = false := by
  obtain ⟨hne, hsl⟩ := hs
  cases s with
  | nil => exact absurd rfl hne
  | cons c s1 =>
    have hc : c ≠ '/' := fun h => hsl (h ▸ List.mem_cons_self c s1)
    cases r with
    | nil => simp [isAbsolutePath, joinSegs, hc]
    | cons r0 rest =>
      rw [joinSegs_cons₂]
      simp [isAbsolutePath, hc]

theorem mk_nil_eq_empty : String.mk ([] : List Char) = "" := rfl

theorem mk_eq_empty_iff (cs : List Char) : String.mk cs = "" ↔ cs = [] := by
  rw [String.ext_iff]

theorem jsStartsWith_mk_dd (cs : List Char) :
    jsStartsWith (String.mk cs) ".." = ['.', '.'].isPrefixOf cs := rfl

theorem isSubPath_spec (root p : String) :
    isSubPath root p = (lexContained root p && firstRelSegOK root p) := by
  have hwf : ∀ s ∈ normSegs true (splitSegs p.data), SegWF s :=
    normSegs_wf true _ (splitSegs_wf p.data)
  simp only [isSubPath, pathRelative, lexContained, firstRelSegOK]
  set f := normSegs true (splitSegs root.data) with hf
  set t := normSegs true (splitSegs p.data) with ht
  by_cases hpre : f.isPrefixOf t = true
  · rw [(commonLen_eq_left_iff f t).mpr hpre, Nat.sub_self, hpre]
    simp only [List.replicate, List.nil_append, Bool.true_and]
    cases hrest : t.drop f.length with
    | nil =>
      rw [if_pos (by rw [mk_eq_empty_iff]; rfl)]
    | cons s r =>
      have hsmem : s ∈ t := List.drop_subset f.length t (by rw [hrest]; exact List.mem_cons_self s r)
      have hswf : SegWF s := hwf s hsmem
      rw [if_neg (by rw [mk_eq_empty_iff]; exact joinSegs_ne_nil s hswf.1 r)]
      rw [jsStartsWith_mk_dd, dd_isPrefixOf_joinSegs s hswf.1 r,
        isAbsolute_mk_joinSegs s hswf r]
      simp
  · have hlt : commonLen f t < f.length := by
      have h1 := commonLen_le_left f t
      have h2 : commonLen f t ≠ f.length := fun h => hpre ((commonLen_eq_left_iff f t).mp h)
      omega
    obtain ⟨m, hm⟩ : ∃ m, f.length - commonLen f t = m + 1 :=
      ⟨f.length - commonLen f t - 1, by omega⟩
    rw [hm, List.replicate_succ]
    rw [Bool.not_eq_true] at hpre
    rw [hpre]
    simp only [List.cons_append, Bool.false_and]
    rw [if_neg (by rw [mk_eq_empty_iff]; exact joinSegs_ne_nil _ (by simp) _)]
    rw [jsStartsWith_mk_dd, dd_isPrefixOf_joinSegs _ (by simp) _]
    simp [List.isPrefixOf]

/-! ### Splitting, joining and decoding lemmas -/

theorem splitSegsAux_append_sep (ys : List Char) :
    ∀ (xs : List Char) (acc : List Char),
      splitSegsAux (xs ++ '/' :: ys) acc = splitSegsAux xs acc ++ splitSegs ys := by
  intro xs
  induction xs with
  | nil =>
    intro acc
    cases acc with
    | nil => simp [splitSegsAux, splitSegs]
    | cons a as => simp [splitSegsAux, splitSegs]
  | cons c cs ih =>
    intro acc
    by_cases hc : c = '/'
    · subst hc
      cases acc with
      | nil => simp [splitSegsAux, ih]
      | cons a as => simp [splitSegsAux, ih]
    · simp [splitSegsAux, hc, ih]

theorem splitSegs_append_sep (xs ys : List Char) :
    splitSegs (xs ++ '/' :: ys) = splitSegs xs ++ splitSegs ys :=
  splitSegsAux_append_sep ys xs []

theorem splitSegsAux_no_sep :
    ∀ (cs : List Char) (acc : List Char), '/' ∉ cs → ¬(acc = [] ∧ cs = []) →
      splitSegsAux cs acc = [acc.reverse ++ cs] := by
  intro cs
  induction cs with
  | nil =>
    intro acc h1 h2
    cases acc with
    | nil => exact absurd ⟨rfl, rfl⟩ h2
    | cons a as => simp [splitSegsAux]
  | cons c cs ih =>
    intro acc h1 h2
    have hc : c ≠ '/' := fun hh => h1 (hh ▸ List.mem_cons_self c cs)
    have hrec := ih (c :: acc) (fun hm => h1 (List.mem_cons_of_mem c hm)) (by simp)
    simp only [splitSegsAux, if_neg hc]
    rw [hrec]
    simp

theorem splitSegs_single (cs : List Char) (h1 : cs ≠ []) (h2 : '/' ∉ cs) :
    splitSegs cs = [cs] := by
  unfold splitSegs
  rw [splitSegsAux_no_sep cs [] h2 (by simp [h1])]
  simp

theorem splitSegs_slash_cons (cs : List Char) :
    splitSegs ('/' :: cs) = splitSegs cs := rfl

theorem joinSegs_roundtrip (segs : List Seg) (h : ∀ s ∈ segs, SegWF s) :
    splitSegs (joinSegs segs) = segs := by
  induction segs with
  | nil => rfl
  | cons s rest ih =>
    have hs := h s (List.mem_cons_self s rest)
    cases rest with
    | nil => exact splitSegs_single s hs.1 hs.2
    | cons r0 rest2 =>
      rw [joinSegs_cons₂, splitSegs_append_sep,
        splitSegs_single s hs.1 hs.2,
        ih (fun x hx => h x (List.mem_cons_of_mem s hx))]
      rfl

theorem pctTokens_no_pct (cs : List Char) (h : '%' ∉ cs) :
    pctTokens cs = some (cs.map Sum.inl) := by
  induction cs with
  | nil => rfl
  | cons c cs ih =>
    have hc : c ≠ '%' := fun hh => h (hh ▸ List.mem_cons_self c cs)
    unfold pctTokens
    rw [if_neg hc, ih (fun hm => h (List.mem_cons_of_mem c hm))]
    rfl

theorem utf8Assemble_inls (cs : List Char) :
    utf8Assemble (cs.map Sum.inl) = some cs := by
  induction cs with
  | nil => rfl
  | cons c cs ih =>
    show ((c :: ·) <$> utf8Assemble (cs.map Sum.inl)) = some (c :: cs)
    rw [ih]
    rfl

theorem decode_no_pct (s : String) (h : '%' ∉ s.data) :
    decodeURIComponent s = some s := by
  unfold decodeURIComponent
  rw [pctTokens_no_pct s.data h]
  show (String.mk <$> utf8Assemble (s.data.map Sum.inl)) = some s
  rw [utf8Assemble_inls]
  rfl

theorem commonLen_self (l : List Seg) : commonLen l l = l.length := by
  induction l with
  | nil => rfl
  | cons a as ih => simp [commonLen, ih]

theorem pathRelative_self (s : String) : pathRelative s s = "" := by
  simp only [pathRelative]
  rw [commonLen_self, Nat.sub_self, List.drop_length]
  rfl

/-! ### Claim theorems -/

/-- C1 (corrected): for absolute paths, the guard accepts a candidate
exactly when it lexically reduces to the root or to a descendant of the
root whose first segment below the root does not begin with two dots; the
unamended biconditional (acceptance iff root-or-descendant) fails, see the
counterexample. -/
theorem C1_isSubPath_containment (root p : String)
    (_hroot : isAbsolutePath root = true) (_hp : isAbsolutePath p = true) :
    isSubPath root p = (lexContained root p && firstRelSegOK root p) :=
  isSubPath_spec root p

theorem C1_isSubPath_containment_witness :
    isAbsolutePath "/srv/docs" = true ∧ isAbsolutePath "/srv/docs/a/b" = true ∧
      isSubPath "/srv/docs" "/srv/docs/a/b" =
        (lexContained "/srv/docs" "/srv/docs/a/b" &&
          firstRelSegOK "/srv/docs" "/srv/docs/a/b") :=
  ⟨by decide, by decide,
    C1_isSubPath_containment "/srv/docs" "/srv/docs/a/b" (by decide) (by decide)⟩

/-- C1 counterexample: a genuine descendant of the root whose name begins
with two dots lexically reduces to a descendant of the root, yet the guard
rejects it, so the claimed biconditional is false at this input. -/
theorem C1_counterexample :
    lexContained "/srv/docs" "/srv/docs/..notes.md" = true ∧
      isSubPath "/srv/docs" "/srv/docs/..notes.md" = false := by
  constructor
  · decide
  · decide

/-- C2: a request whose decoded path joined with the root lexically
resolves outside the root, and is not the root itself, is answered 403
with the access-denied body whatever the filesystem, the MIME table and
the renderer hold, so no ignore check, existence check or read can have
taken place. -/
theorem C2_guard_rejects_escape (fs : FileSys) (mimeOf : String → Option String)
    (rnd : Renderer) (root reqPath dp : String)
    (hdec : decodeURIComponent reqPath = some dp)
    (hout : lexContained root (pathJoin root dp) = false)
    (hne : pathJoin root dp ≠ root) :
    handleRequest fs mimeOf rnd root reqPath =
      .plain 403 "Access denied: Path outside of root directory" := by
  have hsub : isSubPath root (pathJoin root dp) = false := by
    rw [isSubPath_spec, hout]
    rfl
  simp only [handleRequest, hdec]
  rw [if_pos ⟨by simp [hsub], hne⟩]

theorem C2_guard_rejects_escape_witness :
    decodeURIComponent "/../../etc/passwd" = some "/../../etc/passwd" ∧
      lexContained "/srv/docs" (pathJoin "/srv/docs" "/../../etc/passwd") = false ∧
      pathJoin "/srv/docs" "/../../etc/passwd" ≠ "/srv/docs" ∧
      handleRequest fsDocs mimeFix rndFix "/srv/docs" "/../../etc/passwd" =
        .plain 403 "Access denied: Path outside of root directory" :=
  ⟨by decide, by decide, by decide,
    C2_guard_rejects_escape fsDocs mimeFix rndFix "/srv/docs" "/../../etc/passwd"
      "/../../etc/passwd" (by decide) (by decide) (by decide)⟩

/-- C3: a guard-passing request for a path the ignore rules hide is
answered with the same 404 status and the same body as a guard-passing
request for a path that does not exist, so an ignored existing path is
observationally indistinguishable from a missing one. -/
theorem C3_ignored_indistinguishable (fs : FileSys) (mimeOf : String → Option String)
    (rnd : Renderer) (root p1 p2 d1 d2 : String)
    (hdec1 : decodeURIComponent p1 = some d1)
    (hg1 : isSubPath root (pathJoin root d1) = true ∨ pathJoin root d1 = root)
    (hi1 : shouldIgnoreFile fs (pathJoin root d1) root = true)
    (hdec2 : decodeURIComponent p2 = some d2)
    (hg2 : isSubPath root (pathJoin root d2) = true ∨ pathJoin root d2 = root)
    (hi2 : shouldIgnoreFile fs (pathJoin root d2) root = false)
    (hmiss : fs (pathJoin root d2) = none) :
    handleRequest fs mimeOf rnd root p1 = .plain 404 "File not found" ∧
      handleRequest fs mimeOf rnd root p2 = .plain 404 "File not found" ∧
      handleRequest fs mimeOf rnd root p1 = handleRequest fs mimeOf rnd root p2 := by
  have hguard1 : ¬(¬isSubPath root (pathJoin root d1) = true ∧ pathJoin root d1 ≠ root) := by
    tauto
  have hguard2 : ¬(¬isSubPath root (pathJoin root d2) = true ∧ pathJoin root d2 ≠ root) := by
    tauto
  have e1 : handleRequest fs mimeOf rnd root p1 = .plain 404 "File not found" := by
    simp only [handleRequest, hdec1]
    rw [if_neg hguard1, if_pos hi1]
  have e2 : handleRequest fs mimeOf rnd root p2 = .plain 404 "File not found" := by
    simp only [handleRequest, hdec2]
    rw [if_neg hguard2, if_neg (by simp [hi2]), hmiss]
  exact ⟨e1, e2, by rw [e1, e2]⟩

theorem C3_ignored_indistinguishable_witness :
    decodeURIComponent "/secret.txt" = some "/secret.txt" ∧
      (isSubPath "/srv/docs" (pathJoin "/srv/docs" "/secret.txt") = true ∨
        pathJoin "/srv/docs" "/secret.txt" = "/srv/docs") ∧
      shouldIgnoreFile fsDocs (pathJoin "/srv/docs" "/secret.txt") "/srv/docs" = true ∧
      decodeURIComponent "/missing.txt" = some "/missing.txt" ∧
      (isSubPath "/srv/docs" (pathJoin "/srv/docs" "/missing.txt") = true ∨
        pathJoin "/srv/docs" "/missing.txt" = "/srv/docs") ∧
      shouldIgnoreFile fsDocs (pathJoin "/srv/docs" "/missing.txt") "/srv/docs" = false ∧
      fsDocs (pathJoin "/srv/docs" "/missing.txt") = none ∧
      handleRequest fsDocs mimeFix rndFix "/srv/docs" "/secret.txt" =
        handleRequest fsDocs mimeFix rndFix "/srv/docs" "/missing.txt" :=
  ⟨by decide, by decide, by decide, by decide, by decide, by decide, by decide,
    (C3_ignored_indistinguishable fsDocs mimeFix rndFix "/srv/docs" "/secret.txt"
      "/missing.txt" "/secret.txt" "/missing.txt" (by decide) (by decide) (by decide)
      (by decide) (by decide) (by decide) (by decide)).2.2⟩

/-- C5: the root is never self-ignored, and a path whose relative path
from the root starts with a parent-traversal segment is never ignored,
whatever rules are loaded. -/
theorem C5_root_and_outside_never_ignored (fs : FileSys) (root p : String) :
    shouldIgnoreFile fs root root = false ∧
      ((pathRelative root p = ".." ∨ jsStartsWith (pathRelative root p) "../" = true) →
        shouldIgnoreFile fs p root = false) := by
  constructor
  · have h1 : jsStartsWith "" ".." = false := rfl
    simp [shouldIgnoreFile, pathRelative_self, h1]
  · intro h
    have h2 : jsStartsWith (pathRelative root p) ".." = true := by
      rcases h with h | h
      · rw [h]; rfl
      · unfold jsStartsWith at h ⊢
        rw [ List.isPrefixOf_iff_prefix] at h ⊢
        exact List.IsPrefix.trans ⟨['/'], rfl⟩ h
    simp [shouldIgnoreFile, h2]

theorem C5_root_and_outside_never_ignored_witness :
    shouldIgnoreFile fsDocs "/srv/docs" "/srv/docs" = false ∧
      ((pathRelative "/srv/docs" "/etc/passwd" = ".." ∨
          jsStartsWith (pathRelative "/srv/docs" "/etc/passwd") "../" = true) ∧
        shouldIgnoreFile fsDocs "/etc/passwd" "/srv/docs" = false) :=
  ⟨(C5_root_and_outside_never_ignored fsDocs "/srv/docs" "/srv/docs").1,
    ⟨Or.inr (by decide),
      (C5_root_and_outside_never_ignored fsDocs "/srv/docs" "/etc/passwd").2
        (Or.inr (by decide))⟩⟩

/-- C9: when URL decoding of the request path fails, the response status
is 400, a 400-class status (the catch-all route captures the whole path
as a parameter, so Express answers the malformed encoding itself). -/
theorem C9_malformed_percent_400 (fs : FileSys) (mimeOf : String → Option String)
    (rnd : Renderer) (root reqPath : String)
    (hdec : decodeURIComponent reqPath = none) :
    handleRequest fs mimeOf rnd root reqPath = .plain 400 expressDecodeFailureBody := by
  simp only [handleRequest, hdec]

theorem C9_malformed_percent_400_witness :
    decodeURIComponent "/%zz" = none ∧
      handleRequest fsDocs mimeFix rndFix "/srv/docs" "/%zz" =
        .plain 400 expressDecodeFailureBody :=
  ⟨by decide,
    C9_malformed_percent_400 fsDocs mimeFix rndFix "/srv/docs" "/%zz" (by decide)⟩

/-- C7: for a file without an extension, the source classifier computes
exactly the classification the specification prescribes, so the
precedence is shebang first, then javascript keywords, then python
keywords, then none; content holding keywords of both fixed sets
classifies as javascript because the javascript set is tested first. -/
theorem C7_noext_classification (filePath content : String)
    (hext : extname filePath = "") :
    detectLanguage filePath content = specNoExtLanguage content := by
  unfold detectLanguage
  rw [hext]
  rfl

theorem C7_noext_classification_witness :
    extname "/srv/docs/run" = "" ∧
      detectLanguage "/srv/docs/run" "const a = 1; import sys" =
        specNoExtLanguage "const a = 1; import sys" ∧
      specNoExtLanguage "const a = 1; import sys" = some "javascript" ∧
      detectLanguage "/srv/docs/run" "hello world" = specNoExtLanguage "hello world" ∧
      specNoExtLanguage "hello world" = none :=
  ⟨by decide,
    C7_noext_classification "/srv/docs/run" "const a = 1; import sys" (by decide),
    by decide,
    C7_noext_classification "/srv/docs/run" "hello world" (by decide),
    by decide⟩

theorem lastMatch_all_pos (segs : List Seg) (d : Bool) :
    ∀ (rules : List IgnoreRule) (acc : Option Bool),
      (∀ r ∈ rules, r.negated = false) →
      (acc = some true ∨ ∃ r ∈ rules, ruleMatches r segs d = true) →
      List.foldl (fun acc r => if ruleMatches r segs d then some (!r.negated) else acc)
        acc rules = some true := by
  intro rules
  induction rules with
  | nil =>
    intro acc hneg hex
    rcases hex with h | ⟨r, hr, _⟩
    · simpa using h
    · simp at hr
  | cons r rs ih =>
    intro acc hneg hex
    rw [List.foldl_cons]
    apply ih
    · exact fun x hx => hneg x (List.mem_cons_of_mem r hx)
    · by_cases hm : ruleMatches r segs d = true
      · left
        rw [if_pos hm, hneg r (List.mem_cons_self r rs)]
        rfl
      · rcases hex with h | ⟨r2, hr2, hm2⟩
        · left
          rw [if_neg hm]
          exact h
        · rcases List.mem_cons.mp hr2 with h2 | h2
          · exact absurd (h2 ▸ hm2) hm
          · right
            exact ⟨r2, h2, hm2⟩

theorem getLast?_take_succ (l : List Seg) (i : Nat) (hi : i < l.length) :
    (l.take (i + 1)).getLast? = l[i]? := by
  rw [List.getLast?_eq_getElem?, List.getElem?_take]
  have hlen : (l.take (i + 1)).length = i + 1 := by
    rw [List.length_take]
    omega
  rw [hlen]
  simp

theorem ignoresSegs_of_git_component (rules : List IgnoreRule) (segs : List Seg)
    (hmem : gitImplicitRule ∈ rules)
    (hneg : ∀ r ∈ rules, r.negated = false)
    (i : Nat) (hi : i < segs.length)
    (hgit : segs[i]? = some ['.', 'g', 'i', 't']) :
    ignoresSegs rules segs = true := by
  unfold ignoresSegs
  rw [List.any_eq_true]
  refine ⟨segs.take (i + 1), ?_, ?_⟩
  · unfold nonemptyPrefixes
    exact List.mem_map.mpr ⟨i, List.mem_range.mpr hi, rfl⟩
  · rw [beq_iff_eq]
    apply lastMatch_all_pos _ _ rules none hneg
    right
    refine ⟨gitImplicitRule, hmem, ?_⟩
    unfold ruleMatches gitImplicitRule
    rw [getLast?_take_succ segs i hi, hgit]
    simp only [Bool.not_false, Bool.true_or, Bool.true_and]
    rw [if_neg Bool.false_ne_true]
    decide

/-- C4 (amended): the loaded rule set always begins with the implicit
rule for the git directory name; and when no loaded rule is a negation
pattern, every in-root, non-root path one of whose components is the git
directory name is reported ignored.  The unamended claim, which promises
this regardless of ignore-file content, fails when an ignore file negates
the implicit rule, see the counterexample. -/
theorem C4_git_always_ignored (fs : FileSys) (root p : String)
    (hneg : ∀ r ∈ loadGitignoreRules fs root, r.negated = false)
    (h1 : jsStartsWith (pathRelative root p) ".." = false)
    (h2 : pathRelative root p ≠ "")
    (h3 : pathRelative root p ≠ ".")
    (i : Nat) (hi : i < (splitSegs (toPosixSeps (pathRelative root p)).data).length)
    (hgit : (splitSegs (toPosixSeps (pathRelative root p)).data)[i]? =
      some ['.', 'g', 'i', 't']) :
    (loadGitignoreRules fs root).head? = some gitImplicitRule ∧
      shouldIgnoreFile fs p root = true := by
  have hrules : loadGitignoreRules fs root =
      gitImplicitRule :: gitignoreWalk fs (root.length + 2) root [] := rfl
  constructor
  · rw [hrules]
    rfl
  · simp only [shouldIgnoreFile, h1]
    rw [if_neg (by simp)]
    rw [if_neg (by simp [h2, h3])]
    unfold igIgnores
    apply ignoresSegs_of_git_component _ _ _ hneg i hi hgit
    rw [hrules]
    exact List.mem_cons_self _ _

theorem C4_git_always_ignored_witness :
    (∀ r ∈ loadGitignoreRules fsDocs "/srv/docs", r.negated = false) ∧
      (loadGitignoreRules fsDocs "/srv/docs").head? = some gitImplicitRule ∧
      shouldIgnoreFile fsDocs "/srv/docs/.git" "/srv/docs" = true :=
  ⟨by decide,
    (C4_git_always_ignored fsDocs "/srv/docs" "/srv/docs/.git" (by decide) (by decide)
      (by decide) (by decide) 0 (by decide) (by decide)).1,
    (C4_git_always_ignored fsDocs "/srv/docs" "/srv/docs/.git" (by decide) (by decide)
      (by decide) (by decide) 0 (by decide) (by decide)).2⟩

/-- C4 counterexample: an ignore file containing a negation of the git
directory name defeats the implicit rule, so the git directory of that
root is not ignored even though it is an in-root path with a git
component, refuting the claim as stated. -/
theorem C4_counterexample :
    fsNegGit "/docs/.gitignore" = some (.file "!.git" 0) ∧
      pathRelative "/docs" "/docs/.git" = ".git" ∧
      shouldIgnoreFile fsNegGit "/docs/.git" "/docs" = false := by
  refine ⟨by decide, by decide, by decide⟩

theorem cmpChars_swap (xs : List Char) : ∀ ys, cmpChars ys xs = -cmpChars xs ys := by
  induction xs with
  | nil => intro ys; cases ys <;> simp [cmpChars]
  | cons a as ih =>
    intro ys
    cases ys with
    | nil => simp [cmpChars]
    | cons b bs =>
      simp only [cmpChars]
      rcases Nat.lt_trichotomy a.toNat b.toNat with h | h | h
      · have h2 : ¬b.toNat < a.toNat := by omega
        simp [h, h2]
      · have h2 : ¬a.toNat < b.toNat := by omega
        have h3 : ¬b.toNat < a.toNat := by omega
        simp [h2, h3, ih bs]
      · have h2 : ¬a.toNat < b.toNat := by omega
        simp [h, h2]

theorem char_toNat_inj {a b : Char} (h : a.toNat = b.toNat) : a = b :=
  Char.eq_of_val_eq (UInt32.toNat.inj h)

theorem cmpChars_eq_zero_iff (xs : List Char) : ∀ ys, cmpChars xs ys = 0 ↔ xs = ys := by
  induction xs with
  | nil => intro ys; cases ys <;> simp [cmpChars]
  | cons a as ih =>
    intro ys
    cases ys with
    | nil => simp [cmpChars]
    | cons b bs =>
      simp only [cmpChars]
      rcases Nat.lt_trichotomy a.toNat b.toNat with h | h | h
      · have hne : a ≠ b := fun hh => by rw [hh] at h; omega
        simp [h, hne]
      · have heq : a = b := char_toNat_inj h
        have h2 : ¬a.toNat < b.toNat := by omega
        have h3 : ¬b.toNat < a.toNat := by omega
        simp [h2, h3, ih bs, heq]
      · have hne : a ≠ b := fun hh => by rw [hh] at h; omega
        have h2 : ¬a.toNat < b.toNat := by omega
        simp [h, h2, hne]

theorem cmpChars_neg_trans (xs : List Char) :
    ∀ ys zs, cmpChars xs ys = -1 → cmpChars ys zs = -1 → cmpChars xs zs = -1 := by
  induction xs with
  | nil =>
    intro ys zs h1 h2
    cases ys with
    | nil => simp [cmpChars] at h1
    | cons b bs =>
      cases zs with
      | nil => simp [cmpChars] at h2
      | cons c cs => simp [cmpChars]
  | cons a as ih =>
    intro ys zs h1 h2
    cases ys with
    | nil => simp [cmpChars] at h1
    | cons b bs =>
      cases zs with
      | nil => simp [cmpChars] at h2
      | cons c cs =>
        simp only [cmpChars] at h1 h2 ⊢
        by_cases hab : a.toNat < b.toNat
        · by_cases hbc : b.toNat < c.toNat
          · rw [if_pos (by omega)]
          · rw [if_neg hbc] at h2
            by_cases hcb : c.toNat < b.toNat
            · rw [if_pos hcb] at h2
              simp at h2
            · have hbceq : b = c := char_toNat_inj (by omega)
              rw [if_pos (by rw [← hbceq]; exact hab)]
        · rw [if_neg hab] at h1
          by_cases hba : b.toNat < a.toNat
          · rw [if_pos hba] at h1
            simp at h1
          · rw [if_neg hba] at h1
            have habeq : a = b := char_toNat_inj (by omega)
            by_cases hbc : b.toNat < c.toNat
            · rw [if_pos (by rw [habeq]; exact hbc)]
            · rw [if_neg hbc] at h2
              by_cases hcb : c.toNat < b.toNat
              · rw [if_pos hcb] at h2
                simp at h2
              · rw [if_neg hcb] at h2
                have hbceq : b = c := char_toNat_inj (by omega)
                rw [if_neg (by rw [habeq, hbceq]; omega),
                  if_neg (by rw [habeq, hbceq]; omega)]
                exact ih bs cs h1 h2

theorem cmpChars_cases (xs ys : List Char) :
    cmpChars xs ys = -1 ∨ cmpChars xs ys = 0 ∨ cmpChars xs ys = 1 := by
  induction xs generalizing ys with
  | nil => cases ys <;> simp [cmpChars]
  | cons a as ih =>
    cases ys with
    | nil => simp [cmpChars]
    | cons b bs =>
      simp only [cmpChars]
      by_cases h1 : a.toNat < b.toNat
      · simp [h1]
      · by_cases h2 : b.toNat < a.toNat
        · simp [h1, h2]
        · simp only [if_neg h1, if_neg h2]
          exact ih bs

theorem cmpChars_le_trans (xs ys zs : List Char)
    (h1 : cmpChars xs ys ≤ 0) (h2 : cmpChars ys zs ≤ 0) : cmpChars xs zs ≤ 0 := by
  rcases cmpChars_cases xs ys with ha | ha | ha
  · rcases cmpChars_cases ys zs with hb | hb | hb
    · rw [cmpChars_neg_trans xs ys zs ha hb]
      omega
    · have : ys = zs := (cmpChars_eq_zero_iff ys zs).mp hb
      rw [← this, ha]
      omega
    · rw [hb] at h2
      omega
  · have : xs = ys := (cmpChars_eq_zero_iff xs ys).mp ha
    rw [this]
    exact h2
  · rw [ha] at h1
    omega

theorem localeCompare_swap (s t : String) : localeCompare t s = -localeCompare s t := by
  unfold localeCompare
  rw [cmpChars_swap (s.data.map Char.toLower) (t.data.map Char.toLower)]
  by_cases h : cmpChars (s.data.map Char.toLower) (t.data.map Char.toLower) = 0
  · rw [if_pos h, if_pos (by rw [h]; rfl)]
    exact cmpChars_swap t.data s.data
  · rw [if_neg h, if_neg (by intro hh; exact h (by omega))]

theorem localeCompare_le_trans (s t u : String)
    (h1 : localeCompare s t ≤ 0) (h2 : localeCompare t u ≤ 0) :
    localeCompare s u ≤ 0 := by
  unfold localeCompare at h1 h2 ⊢
  by_cases ha : cmpChars (s.data.map Char.toLower) (t.data.map Char.toLower) = 0
  · have hst : s.data.map Char.toLower = t.data.map Char.toLower :=
      (cmpChars_eq_zero_iff _ _).mp ha
    rw [if_pos ha] at h1
    by_cases hb : cmpChars (t.data.map Char.toLower) (u.data.map Char.toLower) = 0
    · have htu : t.data.map Char.toLower = u.data.map Char.toLower :=
        (cmpChars_eq_zero_iff _ _).mp hb
      rw [if_pos hb] at h2
      rw [if_pos (by rw [hst, htu]; exact (cmpChars_eq_zero_iff _ _).mpr rfl)]
      exact cmpChars_le_trans u.data t.data s.data h2 h1
    · rw [if_neg hb] at h2
      rw [hst]
      rw [if_neg hb]
      exact h2
  · rw [if_neg ha] at h1
    by_cases hb : cmpChars (t.data.map Char.toLower) (u.data.map Char.toLower) = 0
    · have htu : t.data.map Char.toLower = u.data.map Char.toLower :=
        (cmpChars_eq_zero_iff _ _).mp hb
      rw [← htu, if_neg ha]
      exact h1
    · rw [if_neg hb] at h2
      have hc : cmpChars (s.data.map Char.toLower) (u.data.map Char.toLower) = -1 := by
        have ha1 : cmpChars (s.data.map Char.toLower) (t.data.map Char.toLower) = -1 := by
          rcases cmpChars_cases (s.data.map Char.toLower) (t.data.map Char.toLower) with
            h | h | h
          · exact h
          · exact absurd h ha
          · rw [h] at h1; omega
        have hb1 : cmpChars (t.data.map Char.toLower) (u.data.map Char.toLower) = -1 := by
          rcases cmpChars_cases (t.data.map Char.toLower) (u.data.map Char.toLower) with
            h | h | h
          · exact h
          · exact absurd h hb
          · rw [h] at h2; omega
        exact cmpChars_neg_trans _ _ _ ha1 hb1
      rw [if_neg (by rw [hc]; omega), hc]
      omega

theorem entryCmp_swap (a b : FileEntry) : entryCmp b a = -entryCmp a b := by
  unfold entryCmp
  cases ha : a.isDirectory <;> cases hb : b.isDirectory <;> simp [ha, hb] <;>
    exact localeCompare_swap _ _

theorem entryLE_total (a b : FileEntry) : entryLEProp a b ∨ entryLEProp b a := by
  unfold entryLEProp
  rcases le_or_lt (entryCmp a b) 0 with h | h
  · exact Or.inl h
  · right
    rw [entryCmp_swap]
    omega

theorem entryLE_trans (a b c : FileEntry)
    (h1 : entryLEProp a b) (h2 : entryLEProp b c) : entryLEProp a c := by
  unfold entryLEProp entryCmp at h1 h2 ⊢
  cases ha : a.isDirectory <;> cases hb : b.isDirectory <;> cases hc : c.isDirectory <;>
    simp only [ha, hb, hc] at h1 h2 ⊢ <;>
    simp at h1 h2 ⊢ <;>
    first
      | omega
      | exact localeCompare_le_trans _ _ _ h1 h2

theorem mapInfos_mem (fs : FileSys) :
    ∀ (ps : List String) (es : List FileEntry), mapInfos fs ps = some es →
      ∀ e ∈ es, ∃ p ∈ ps, getFileInfo fs p = some e := by
  intro ps
  induction ps with
  | nil =>
    intro es h e he
    simp [mapInfos] at h
    subst h
    simp at he
  | cons p ps ih =>
    intro es h e he
    unfold mapInfos at h
    cases h1 : getFileInfo fs p with
    | none => rw [h1] at h; simp at h
    | some e0 =>
      rw [h1] at h
      cases h2 : mapInfos fs ps with
      | none => rw [h2] at h; simp at h
      | some es0 =>
        rw [h2] at h
        simp at h
        subst h
        rcases List.mem_cons.mp he with h3 | h3
        · exact ⟨p, List.mem_cons_self p ps, h3 ▸ h1⟩
        · obtain ⟨q, hq, hqe⟩ := ih es0 h2 e h3
          exact ⟨q, List.mem_cons_of_mem p hq, hqe⟩

/-- C8: every entry the listing produces comes from a child whose name
does not start with the hidden-file marker and which the ignore engine
does not hide, and the produced sequence is sorted by the comparator, so
all directory entries precede all file entries and names ascend within
each group. -/
theorem C8_listing_filtered_sorted (fs : FileSys) (root dirPath : String)
    (children : List String) (entries : List FileEntry)
    (h : listDirectory fs root dirPath children = some entries) :
    (∀ e ∈ entries, ∃ n ∈ children, jsStartsWith n "." = false ∧
        shouldIgnoreFile fs (pathJoin dirPath n) root = false ∧
        getFileInfo fs (pathJoin dirPath n) = some e) ∧
      entries.Pairwise entryLEProp := by
  simp only [listDirectory] at h
  cases hm : mapInfos fs
      (((children.filter (fun f => !(jsStartsWith f "."))).map
        (fun f => pathJoin dirPath f)).filter
          (fun p => !(shouldIgnoreFile fs p root))) with
  | none => rw [hm] at h; simp at h
  | some base =>
    rw [hm] at h
    simp only [Option.some.injEq] at h
    subst h
    constructor
    · intro e he
      have he2 : e ∈ base := (List.mem_insertionSort entryLEProp).mp he
      obtain ⟨p, hp, hinfo⟩ := mapInfos_mem fs _ base hm e he2
      rw [List.mem_filter] at hp
      obtain ⟨hp1, hp2⟩ := hp
      rw [List.mem_map] at hp1
      obtain ⟨n, hn, hpn⟩ := hp1
      rw [List.mem_filter] at hn
      obtain ⟨hn1, hn2⟩ := hn
      subst hpn
      refine ⟨n, hn1, by simpa using hn2, by simpa using hp2, hinfo⟩
    · exact @List.sorted_insertionSort _ entryLEProp _ ⟨entryLE_total⟩
        ⟨entryLE_trans⟩ base

theorem C8_listing_filtered_sorted_witness :
    listDirectory fsSort "/d" "/d" ["b.txt", "A", "a.txt"] = some
        [{ name := "A", isDirectory := true, size := none, modified := 2,
            extension := "", type := "directory" },
          { name := "a.txt", isDirectory := false, size := some 2, modified := 3,
            extension := ".txt", type := "text" },
          { name := "b.txt", isDirectory := false, size := some 2, modified := 1,
            extension := ".txt", type := "text" }] ∧
      List.Pairwise entryLEProp
        [{ name := "A", isDirectory := true, size := none, modified := 2,
            extension := "", type := "directory" },
          { name := "a.txt", isDirectory := false, size := some 2, modified := 3,
            extension := ".txt", type := "text" },
          { name := "b.txt", isDirectory := false, size := some 2, modified := 1,
            extension := ".txt", type := "text" }] :=
  ⟨by decide,
    (C8_listing_filtered_sorted fsSort "/d" "/d" ["b.txt", "A", "a.txt"] _
      (by decide)).2⟩

/-- C6: for an existing regular file that passes the guard and the ignore
check, the response is the rendered-as-text document exactly when the
looked-up MIME type passes the gate (a type beginning with the text prefix
or exactly the javascript or json application type), and otherwise the
raw file stream carrying no read content and no classification. -/
theorem C6_mime_gate (fs : FileSys) (mimeOf : String → Option String) (rnd : Renderer)
    (root reqPath dp content : String) (mt : Nat)
    (hdec : decodeURIComponent reqPath = some dp)
    (hg : isSubPath root (pathJoin root dp) = true ∨ pathJoin root dp = root)
    (hni : shouldIgnoreFile fs (pathJoin root dp) root = false)
    (hfile : fs (pathJoin root dp) = some (.file content mt)) :
    (isTextRenderableMime (mimeOf (pathJoin root dp)) = true →
      handleRequest fs mimeOf rnd root reqPath =
        .html (rnd.fileHTML (jsBasename (pathJoin root dp)) content dp
          (jsToLower (extname (pathJoin root dp)) = ".md")
          (detectLanguage (pathJoin root dp) content)
          (jsToLower (extname (pathJoin root dp)) = ".html" ∨
            jsToLower (extname (pathJoin root dp)) = ".htm"))) ∧
      (isTextRenderableMime (mimeOf (pathJoin root dp)) = false →
        handleRequest fs mimeOf rnd root reqPath = .fileRaw (pathJoin root dp)) := by
  have hguard : ¬(¬isSubPath root (pathJoin root dp) = true ∧ pathJoin root dp ≠ root) := by
    tauto
  constructor <;> intro hmime <;>
    · simp only [handleRequest, hdec]
      rw [if_neg hguard, if_neg (by simp [hni]), hfile]
      simp [hmime]

theorem C6_mime_gate_witness :
    isTextRenderableMime (mimeFix (pathJoin "/srv/docs" "/README.md")) = true ∧
      handleRequest fsDocs mimeFix rndFix "/srv/docs" "/README.md" = .html "README.md" ∧
      isTextRenderableMime (mimeFix (pathJoin "/srv/docs" "/logo.png")) = false ∧
      handleRequest fsDocs mimeFix rndFix "/srv/docs" "/logo.png" =
        .fileRaw "/srv/docs/logo.png" :=
  ⟨by decide,
    by
      have h := (C6_mime_gate fsDocs mimeFix rndFix "/srv/docs" "/README.md" "/README.md"
        "# Hello" 5 (by decide) (by decide) (by decide) (by decide)).1 (by decide)
      rw [h]
      decide,
    by decide,
    by
      have h := (C6_mime_gate fsDocs mimeFix rndFix "/srv/docs" "/logo.png" "/logo.png"
        "PNG" 6 (by decide) (by decide) (by decide) (by decide)).2 (by decide)
      rw [h]
      decide⟩

theorem data_mk (l : List Char) : (String.mk l).data = l := rfl

theorem pathNormalize_abs (cs : List Char)
    (hlast : ('/' :: cs).getLast? ≠ some '/') :
    pathNormalize (String.mk ('/' :: cs)) =
      if (normSegs true (splitSegs ('/' :: cs))).isEmpty then "/"
      else String.mk ('/' :: joinSegs (normSegs true (splitSegs ('/' :: cs)))) := by
  by_cases h : (normSegs true (splitSegs ('/' :: cs))).isEmpty
  · simp [pathNormalize, data_mk, decide_eq_false hlast, h]
  · simp [pathNormalize, data_mk, decide_eq_false hlast, h]

/-- C10: a child of the root whose name begins with two dots makes the
relative path from the root start with two dots, so the guard rejects it
and the server answers 403, although the path is a genuine descendant of
the root and exists on disk. -/
theorem C10_dotdot_child_403 (fs : FileSys) (mimeOf : String → Option String)
    (rnd : Renderer) (root n : String)
    (hcanon : resolveAbs root = root)
    (hn1 : n ≠ "") (hn2 : '/' ∉ n.data) (hn3 : '%' ∉ n.data)
    (hdd : jsStartsWith n ".." = true) (hne2 : n ≠ "..")
    (_hex : (fs (pathJoin root ("/" ++ n))).isSome = true) :
    isSubPath root (pathJoin root ("/" ++ n)) = false ∧
      lexContained root (pathJoin root ("/" ++ n)) = true ∧
      handleRequest fs mimeOf rnd root ("/" ++ n) =
        .plain 403 "Access denied: Path outside of root directory" := by
  have hwf_nr : ∀ s ∈ normSegs true (splitSegs root.data), SegWF s :=
    normSegs_wf true _ (splitSegs_wf root.data)
  have hnodots : ∀ s ∈ normSegs true (splitSegs root.data), s ≠ ['.'] ∧ s ≠ ['.', '.'] :=
    normSegs_true_nodots _
  have hdata : root.data = '/' :: joinSegs (normSegs true (splitSegs root.data)) :=
    congrArg String.data hcanon.symm
  have hsplit : splitSegs root.data = normSegs true (splitSegs root.data) := by
    conv_lhs => rw [hdata]
    rw [splitSegs_slash_cons, joinSegs_roundtrip _ hwf_nr]
  have hndata_ne : n.data ≠ [] := fun h => hn1 (String.ext_iff.mpr (by rw [h]))
  have hnwf : SegWF n.data := ⟨hndata_ne, hn2⟩
  have hdd2 : ['.', '.'].isPrefixOf n.data = true := hdd
  have hnd1 : n.data ≠ ['.'] := by
    intro h
    rw [h] at hdd2
    simp [List.isPrefixOf] at hdd2
  have hnd2 : n.data ≠ ['.', '.'] := fun h =>
    hne2 (String.ext_iff.mpr (by rw [h]))
  have hroot_ne : root ≠ "" := by
    intro h
    rw [h] at hdata
    simp at hdata
  have hslashn : ("/" ++ n).data = '/' :: n.data := by
    rw [String.data_append]
    rfl
  have hsn_ne : ("/" ++ n) ≠ "" := by
    intro h
    rw [h] at hslashn
    simp at hslashn
  -- the joined candidate in segment form
  have hcs : root.data ++ '/' :: ('/' :: n.data) =
      '/' :: (joinSegs (normSegs true (splitSegs root.data)) ++ '/' :: ('/' :: n.data)) := by
    conv_lhs => rw [hdata]
    rfl
  have hsplit_full : splitSegs (root.data ++ '/' :: ('/' :: n.data)) =
      normSegs true (splitSegs root.data) ++ [n.data] := by
    rw [splitSegs_append_sep, splitSegs_slash_cons,
      splitSegs_single n.data hndata_ne hn2]
    exact congrArg (fun l => l ++ [n.data]) hsplit
  have hfix_full : normSegs true (normSegs true (splitSegs root.data) ++ [n.data]) =
      normSegs true (splitSegs root.data) ++ [n.data] := by
    apply normSegs_fix
    intro s hs
    rcases List.mem_append.mp hs with h | h
    · exact hnodots s h
    · rw [List.mem_singleton.mp h]
      exact ⟨hnd1, hnd2⟩
  have hlast_full : (root.data ++ '/' :: ('/' :: n.data)).getLast? ≠ some '/' := by
    have e1 : root.data ++ '/' :: ('/' :: n.data) =
        (root.data ++ ['/', '/']) ++ n.data := by simp
    rw [e1, List.getLast?_append_of_ne_nil _ hndata_ne]
    intro h
    exact hn2 (List.mem_of_mem_getLast? h)
  have hjoin : pathJoin root ("/" ++ n) =
      String.mk ('/' :: joinSegs (normSegs true (splitSegs root.data) ++ [n.data])) := by
    simp only [pathJoin]
    rw [if_neg hroot_ne, if_neg hsn_ne, hslashn]
    rw [if_neg (by rw [mk_eq_empty_iff]; simp)]
    have hmk : String.mk (root.data ++ '/' :: ('/' :: n.data)) =
        String.mk ('/' :: (joinSegs (normSegs true (splitSegs root.data)) ++
          '/' :: ('/' :: n.data))) := by rw [hcs]
    rw [hmk]
    have hlast2 : ('/' :: (joinSegs (normSegs true (splitSegs root.data)) ++
        '/' :: ('/' :: n.data))).getLast? ≠ some '/' := by
      rw [← hcs]
      exact hlast_full
    rw [pathNormalize_abs _ hlast2]
    have hsegs2 : splitSegs ('/' :: (joinSegs (normSegs true (splitSegs root.data)) ++
        '/' :: ('/' :: n.data))) = normSegs true (splitSegs root.data) ++ [n.data] := by
      rw [← hcs]
      exact hsplit_full
    rw [hsegs2, hfix_full]
    rw [if_neg (by simp)]
  have hfulldata : (pathJoin root ("/" ++ n)).data =
      '/' :: joinSegs (normSegs true (splitSegs root.data) ++ [n.data]) := by
    rw [hjoin]
  have hwf_all : ∀ s ∈ normSegs true (splitSegs root.data) ++ [n.data], SegWF s := by
    intro s hs
    rcases List.mem_append.mp hs with h | h
    · exact hwf_nr s h
    · rw [List.mem_singleton.mp h]
      exact hnwf
  have hsplit_t : splitSegs (pathJoin root ("/" ++ n)).data =
      normSegs true (splitSegs root.data) ++ [n.data] := by
    rw [hfulldata, splitSegs_slash_cons, joinSegs_roundtrip _ hwf_all]
  have ht : normSegs true (splitSegs (pathJoin root ("/" ++ n)).data) =
      normSegs true (splitSegs root.data) ++ [n.data] := by
    rw [hsplit_t, hfix_full]
  have hrel : pathRelative root (pathJoin root ("/" ++ n)) = n := by
    simp only [pathRelative]
    rw [ht]
    rw [(commonLen_eq_left_iff _ _).mpr
      ( List.isPrefixOf_iff_prefix.mpr ⟨[n.data], rfl⟩)]
    rw [Nat.sub_self, List.drop_left]
    show String.mk (joinSegs [n.data]) = n
    rfl
  have hsub : isSubPath root (pathJoin root ("/" ++ n)) = false := by
    simp only [isSubPath]
    rw [hrel]
    rw [if_neg hn1]
    unfold jsStartsWith
    rw [show (".." : String).data = ['.', '.'] from rfl, hdd2]
    rfl
  have hne_full : pathJoin root ("/" ++ n) ≠ root := by
    intro h
    have h2 := congrArg (fun s => splitSegs s.data) h
    simp only [hsplit_t] at h2
    rw [← hsplit] at h2
    have := congrArg List.length h2
    simp at this
  have hdec : decodeURIComponent ("/" ++ n) = some ("/" ++ n) := by
    apply decode_no_pct
    rw [hslashn]
    intro h
    rcases List.mem_cons.mp h with h | h
    · exact absurd h.symm (by decide)
    · exact hn3 h
  refine ⟨hsub, ?_, ?_⟩
  · unfold lexContained
    rw [ht]
    exact  List.isPrefixOf_iff_prefix.mpr ⟨[n.data], rfl⟩
  · simp only [handleRequest, hdec]
    rw [if_pos ⟨by simp [hsub], hne_full⟩]

theorem C10_dotdot_child_403_witness :
    resolveAbs "/srv/docs" = "/srv/docs" ∧
      jsStartsWith "..notes.md" ".." = true ∧
      (fsDocs (pathJoin "/srv/docs" ("/" ++ "..notes.md"))).isSome = true ∧
      isSubPath "/srv/docs" (pathJoin "/srv/docs" ("/" ++ "..notes.md")) = false ∧
      lexContained "/srv/docs" (pathJoin "/srv/docs" ("/" ++ "..notes.md")) = true ∧
      handleRequest fsDocs mimeFix rndFix "/srv/docs" ("/" ++ "..notes.md") =
        .plain 403 "Access denied: Path outside of root directory" :=
  ⟨by decide, by decide, by decide,
    (C10_dotdot_child_403 fsDocs mimeFix rndFix "/srv/docs" "..notes.md" (by decide)
      (by decide) (by decide) (by decide) (by decide) (by decide) (by decide)).1,
    (C10_dotdot_child_403 fsDocs mimeFix rndFix "/srv/docs" "..notes.md" (by decide)
      (by decide) (by decide) (by decide) (by decide) (by decide) (by decide)).2.1,
    (C10_dotdot_child_403 fsDocs mimeFix rndFix "/srv/docs" "..notes.md" (by decide)
      (by decide) (by decide) (by decide) (by decide) (by decide) (by decide)).2.2⟩

end DocsServer
